import Mathlib

/-!
Shallow embedding of parts of the `zarrs` crate (Zarr v3 chunked-array
library) together with proofs about them.

Each definition mirrors one Rust item of the repository; doc comments name
the source location.  Machine integers are modelled by `Nat` (the claims
checked here never depend on wrap-around), byte strings by `List Nat`, and
key-value stores by functions `String → Option (List Nat)`.
-/

namespace Zarrs

/-- Bytes of a store value (`Vec<u8>` in the source). -/
abbrev Bytes := List Nat

/-- A key-value store state: each store key maps to an optional value.
This models the observable content behind the `ReadableStorageTraits` and
`WritableStorageTraits` objects of `src/storage.rs`. -/
abbrev Store := String → Option Bytes

/-- The `set(key, value)` store operation (`WritableStorageTraits::set`):
overwrite the value at `key`. -/
def storeSet (s : Store) (key : String) (value : Bytes) : Store :=
  fun k => if k = key then some value else s k

/- ## meta_key (claim C3) -/

/-- The result of stripping one leading slash from a string, mirroring the
Rust expression `path.strip_prefix('/').unwrap_or(path)`. -/
def stripLeadingSlash (path : String) : String :=
  match path.data with
  | '/' :: rest => String.mk rest
  | _ => path

/-- Embedding of `meta_key` from `src/storage.rs` (lines 397-407): the
metadata store key for a node path.  Node paths are modelled by their
underlying string (`NodePath::as_str`). -/
def meta_key (path : String) : String :=
  if path = "/" then "zarr.json"
  else stripLeadingSlash path ++ "/zarr.json"

/- ## ZstdCodec::compute_encoded_size (claim C4) -/

/-- Modelled from the spec: `BytesRepresentation` (section 4.6,
`compute_encoded_size(decoded_size_bound)` returns `Fixed(n)`, `Bounded(n)`
or `Unbounded`); the type itself lives in
`src/array/bytes_representation.rs` which is not included in `src/`.  Its
variants and the `size` accessor are used by
`src/array/codec/bytes_to_bytes/bz2.rs` and the zstd codec. -/
inductive BytesRepresentation where
  | FixedSize (size : Nat)
  | BoundedSize (size : Nat)
  | UnboundedSize
deriving DecidableEq, Repr

/-- Modelled from the spec: `BytesRepresentation::size` returns the known
size bound (`Fixed(n)` or `Bounded(n)`), and `None` for an unbounded
representation. -/
def BytesRepresentation.size : BytesRepresentation → Option Nat
  | .FixedSize n => some n
  | .BoundedSize n => some n
  | .UnboundedSize => none

/-- The zstd codec state
(`src/array/codec/bytes_to_bytes/zstd/zstd_codec.rs`); the compression
level and checksum flag are irrelevant to `compute_encoded_size` but are
kept for fidelity. -/
structure ZstdCodec where
  compression : Int
  checksum : Bool

/-- Embedding of `ZstdCodec::compute_encoded_size`
(`src/array/codec/bytes_to_bytes/zstd/zstd_codec.rs` lines 148-164). -/
def ZstdCodec.compute_encoded_size (_self : ZstdCodec)
    (decoded_representation : BytesRepresentation) : BytesRepresentation :=
  match decoded_representation.size with
  | none => .UnboundedSize
  | some size =>
    let HEADER_TRAILER_OVERHEAD : Nat := 4 + 14 + 4
    let MIN_WINDOW_SIZE : Nat := 1000
    let BLOCK_OVERHEAD : Nat := 3
    let blocks_overhead : Nat :=
      BLOCK_OVERHEAD * ((size + MIN_WINDOW_SIZE - 1) / MIN_WINDOW_SIZE)
    .BoundedSize (size + HEADER_TRAILER_OVERHEAD + blocks_overhead)

/- ## WritableStorageTraits::set_partial_values (claim C2) -/

/-- A `StoreKeyStartValue` (`src/storage.rs` lines 300-323): a store key, a
starting byte offset, and the bytes to write at that offset. -/
structure StoreKeyStartValue where
  key : String
  start : Nat
  value : Bytes

/-- One iteration of the inner loop of the default
`WritableStorageTraits::set_partial_values` (`src/storage.rs` lines
224-232): zero-extend `bytes` so that the half-open range
`[start, start + value.length)` fits, then overwrite that range with
`value`. -/
def applyPatch (bytes : Bytes) (start : Nat) (value : Bytes) : Bytes :=
  let stop := start + value.length
  let resized :=
    if bytes.length < stop then bytes ++ List.replicate (stop - bytes.length) 0
    else bytes
  resized.take start ++ value ++ resized.drop stop

/-- Embedding of the default `WritableStorageTraits::set_partial_values`
(`src/storage.rs` lines 212-238).  The source groups the entries by
consecutive equal store keys (`Itertools::group_by`), reads each group
key once, applies the patches of the group in order, and writes the result
back with `set`; the recursion below peels off one maximal group at a
time. -/
def set_partial_values (s : Store) : List StoreKeyStartValue → Store
  | [] => s
  | e :: rest =>
    let key := e.key
    let group := e :: rest.takeWhile (fun f => f.key == key)
    let rest2 := rest.dropWhile (fun f => f.key == key)
    let bytes0 := (s key).getD []
    let bytes1 := group.foldl (fun b f => applyPatch b f.start f.value) bytes0
    set_partial_values (storeSet s key bytes1) rest2
termination_by l => l.length
decreasing_by
  simp only [List.length_cons]
  exact Nat.lt_succ_of_le (List.dropWhile_sublist _).length_le

/-- The patches of `entries` that target `key`, applied in list order
starting from `init`.  This is the per-key effect that claim C2 predicts
for `set_partial_values`. -/
def patchesForKey (entries : List StoreKeyStartValue) (key : String)
    (init : Bytes) : Bytes :=
  entries.foldl
    (fun b f => if f.key = key then applyPatch b f.start f.value else b) init

/- ## ReadableStorageTraits::get_partial_values_batched_by_key (claim C6) -/

/-- A `StoreKeyRange` (`src/storage.rs` lines 283-298): a store key and a
byte range.  Byte ranges are kept abstract (type parameter `B`), as
`src/byte_range.rs` is outside `src/`. -/
structure StoreKeyRange (B : Type) where
  key : String
  byte_range : B

/-- Modelled from the spec: the trait method
`ReadableStorageTraits::get_partial_values_key` (no default
implementation; spec section 4.1 `get_partial_key(key, byte_ranges[]) →
maybe bytes[]`).  `store` gives each key's full value, `extract` reads one
byte range out of a value; a missing key yields `none`, a present key the
requested ranges in order. -/
def get_partial_values_key {B V : Type} (store : String → Option V)
    (extract : V → B → V) (key : String) (byte_ranges : List B) :
    Option (List V) :=
  (store key).map (fun v => byte_ranges.map (extract v))

/-- The loop state of the default `get_partial_values_batched_by_key`:
the results so far, the key of the group being accumulated, and the byte
ranges accumulated for it. -/
structure BatchState (B V : Type) where
  out : List (Option V)
  lastKey : Option String
  brs : List B

/-- One flush of the accumulated group (`src/storage.rs` lines 146-151 and
161-166): a batched `get_partial_values_key` call whose `None` answer is
expanded to one `None` per requested range. -/
def flushKey {B V : Type} (store : String → Option V) (extract : V → B → V)
    (key : String) (brs : List B) : List (Option V) :=
  match get_partial_values_key store extract key brs with
  | none => List.replicate brs.length none
  | some vs => vs.map some

/-- One iteration of the loop of `get_partial_values_batched_by_key`
(`src/storage.rs` lines 138-157). -/
def batchStep {B V : Type} (store : String → Option V)
    (extract : V → B → V) (st : BatchState B V) (kr : StoreKeyRange B) :
    BatchState B V :=
  let lastKey := st.lastKey.getD kr.key
  if kr.key ≠ lastKey then
    { out := st.out ++ flushKey store extract lastKey st.brs
      lastKey := some kr.key
      brs := [kr.byte_range] }
  else
    { out := st.out, lastKey := some lastKey
      brs := st.brs ++ [kr.byte_range] }

/-- The trailing flush after the loop (`src/storage.rs` lines 159-167). -/
def finishBatch {B V : Type} (store : String → Option V)
    (extract : V → B → V) (st : BatchState B V) : List (Option V) :=
  if st.brs.isEmpty then st.out
  else
    match st.lastKey with
    | some key => st.out ++ flushKey store extract key st.brs
    | none => st.out

/-- Embedding of the default
`ReadableStorageTraits::get_partial_values_batched_by_key`
(`src/storage.rs` lines 131-170): fold the loop over the key ranges, then
flush the last group. -/
def get_partial_values_batched_by_key {B V : Type}
    (store : String → Option V) (extract : V → B → V)
    (key_ranges : List (StoreKeyRange B)) : List (Option V) :=
  finishBatch store extract
    (key_ranges.foldl (batchStep store extract) ⟨[], none, []⟩)

/-- The claimed observable behaviour: one result per input entry, in input
order, each as a direct per-key range query would produce. -/
def get_partial_values_pointwise {B V : Type} (store : String → Option V)
    (extract : V → B → V) (key_ranges : List (StoreKeyRange B)) :
    List (Option V) :=
  key_ranges.map (fun kr => (store kr.key).map (fun v => extract v kr.byte_range))

/- ## WritableStorageTraits::erase_values (claim C9) -/

/-- A presence-only view of a store: which keys currently exist.  The
erase operations depend only on key presence. -/
abbrev KeySet := String → Bool

/-- Modelled from the spec: the trait method `WritableStorageTraits::erase`
(no default implementation; spec section 4.1 `erase(key) → existed`):
report whether the key existed and remove it. -/
def erase (s : KeySet) (key : String) : Bool × KeySet :=
  (s key, fun k => if k = key then false else s k)

/-- The loop of the default `WritableStorageTraits::erase_values`
(`src/storage.rs` lines 256-262) with its `all_deleted` accumulator.  The
Rust update `all_deleted = all_deleted && self.erase(key)?`
short-circuits: once `all_deleted` is `false`, `erase` is no longer
invoked for the remaining keys. -/
def eraseValuesLoop (s : KeySet) (all_deleted : Bool) :
    List String → Bool × KeySet
  | [] => (all_deleted, s)
  | key :: rest =>
    if all_deleted then
      let r := erase s key
      eraseValuesLoop r.2 r.1 rest
    else eraseValuesLoop s false rest

/-- Embedding of the default `WritableStorageTraits::erase_values`
(`src/storage.rs` lines 256-262). -/
def erase_values (s : KeySet) (keys : List String) : Bool × KeySet :=
  eraseValuesLoop s true keys

/-- Whether a sequential erase of all the keys, in order, finds every key
present at its turn (the conjunction of all per-key erase results). -/
def seqErasesOk (s : KeySet) : List String → Bool
  | [] => true
  | key :: rest => s key && seqErasesOk (erase s key).2 rest

/-- The number of keys the short-circuiting loop actually erases: every
key up to and including the first one whose erase returns false. -/
def seqEraseCount (s : KeySet) : List String → Nat
  | [] => 0
  | key :: rest =>
    if s key then 1 + seqEraseCount (erase s key).2 rest else 1

/-- Remove every key of a list from the key set. -/
def removeKeys (s : KeySet) (keys : List String) : KeySet :=
  keys.foldl (fun t key => (erase t key).2) s

/- ## Array::new_with_metadata (claim C1) -/

/-- Modelled from the spec: `NodePath::new` (the `node` module is outside
`src/`).  Node paths are the root `/` or slash-separated component paths
such as `/a/b` (spec section 6): they start with a slash, do not end with
one, and have no empty, `.` or `..` components. -/
def NodePath.new (s : String) : Option String :=
  if s = "/" then some s
  else if s.data.head? = some ('/') ∧ s.data.getLast? ≠ some ('/') ∧
      ∀ comp ∈ (s.drop 1).splitOn "/", comp ≠ "" ∧ comp ≠ "." ∧ comp ≠ ".."
  then some s
  else none

/-- Modelled from the spec: the plugin factories used by
`Array::new_with_metadata` (spec sections 4 and 7, *Plugin create
error*).  Sub-metadata JSON documents are abstracted by a type `J`, the
created components by `DT` (data type), `CG` (chunk grid), `KE` (chunk
key encoding), `CC` (codec chain), `ST` (storage transformer chain) and
`FV` (fill value); each factory returns `none` exactly when creation from
the metadata fails. -/
structure PluginEnv (J DT CG KE CC ST FV : Type) where
  dataTypeFromMetadata : J → Option DT
  chunkGridFromMetadata : J → Option CG
  chunkGridDimensionality : CG → Nat
  fillValueFromMetadata : DT → J → Option FV
  codecChainFromMetadata : List J → Option CC
  storageTransformerChainFromMetadata : List J → Option ST
  chunkKeyEncodingFromMetadata : J → Option KE

/-- Zarr v3 array metadata (`ArrayMetadataV3`, declared in the
`array_metadata` module outside `src/`; the fields follow spec section 6).
Each additional field carries its `must_understand` flag. -/
structure ArrayMetadataV3 (J : Type) where
  zarr_format : Nat
  node_type : String
  shape : List Nat
  data_type : J
  chunk_grid : J
  chunk_key_encoding : J
  fill_value : J
  codecs : List J
  attributes : String → Option J
  storage_transformers : List J
  dimension_names : Option (List (Option String))
  additional_fields : List (String × Bool)

/-- Modelled from the spec (by analogy with `GroupMetadataV3` in
`src/group/group_metadata.rs` lines 78-82): `validate_format` checks
`zarr_format == 3`. -/
def ArrayMetadataV3.validate_format {J : Type}
    (m : ArrayMetadataV3 J) : Bool :=
  m.zarr_format == 3

/-- Modelled from the spec (by analogy with `GroupMetadataV3` in
`src/group/group_metadata.rs` lines 84-88): `validate_node_type` checks
`node_type == "array"`. -/
def ArrayMetadataV3.validate_node_type {J : Type}
    (m : ArrayMetadataV3 J) : Bool :=
  m.node_type == "array"

/-- Modelled from the spec: `AdditionalFields::validate` (spec sections 3
and 6: unknown top-level fields are rejected unless annotated
`must_understand: false`).  The Bool of each field is its
`must_understand` flag. -/
def validateAdditionalFields (fields : List (String × Bool)) : Bool :=
  fields.all (fun f => !f.2)

/-- The `ArrayCreateError` variants produced by `new_with_metadata`
(the `array_errors` module is outside `src/`; the variants follow the
construction sites in `src/array.rs` lines 184-250). -/
inductive ArrayCreateError where
  | NodePathError
  | InvalidZarrFormat (got : Nat)
  | InvalidNodeType (got : String)
  | UnsupportedAdditionalFieldError
  | DataTypeCreateError
  | ChunkGridCreateError
  | InvalidChunkGridDimensionality (griddim shapelen : Nat)
  | InvalidFillValueMetadata
  | CodecsCreateError
  | StorageTransformersCreateError
  | ChunkKeyEncodingCreateError
  | InvalidDimensionNames (got shapelen : Nat)
deriving DecidableEq

/-- The constructed array state: the fields of `struct Array`
(`src/array.rs` lines 140-174) populated by `new_with_metadata`.  The
storage handle is omitted (construction never touches the store) and so
are the lock tables, which start empty (see `ChunkLocks.init`). -/
structure ArrayData (J DT CG KE CC ST FV : Type) where
  path : String
  shape : List Nat
  data_type : DT
  chunk_grid : CG
  chunk_key_encoding : KE
  fill_value : FV
  codecs : CC
  attributes : String → Option J
  storage_transformers : ST
  dimension_names : Option (List (Option String))
  additional_fields : List (String × Bool)
  parallel_codecs : Bool
  include_zarrs_metadata : Bool

/-- Embedding of `Array::new_with_metadata` (`src/array.rs` lines
184-250), with the validation steps in source order. -/
def new_with_metadata {J DT CG KE CC ST FV : Type}
    (env : PluginEnv J DT CG KE CC ST FV) (path : String)
    (metadata : ArrayMetadataV3 J) :
    Except ArrayCreateError (ArrayData J DT CG KE CC ST FV) :=
  match NodePath.new path with
  | none => .error .NodePathError
  | some p =>
  if !metadata.validate_format then
    .error (.InvalidZarrFormat metadata.zarr_format)
  else if !metadata.validate_node_type then
    .error (.InvalidNodeType metadata.node_type)
  else if !validateAdditionalFields metadata.additional_fields then
    .error .UnsupportedAdditionalFieldError
  else match env.dataTypeFromMetadata metadata.data_type with
  | none => .error .DataTypeCreateError
  | some data_type =>
  match env.chunkGridFromMetadata metadata.chunk_grid with
  | none => .error .ChunkGridCreateError
  | some chunk_grid =>
  if env.chunkGridDimensionality chunk_grid ≠ metadata.shape.length then
    .error (.InvalidChunkGridDimensionality
      (env.chunkGridDimensionality chunk_grid) metadata.shape.length)
  else match env.fillValueFromMetadata data_type metadata.fill_value with
  | none => .error .InvalidFillValueMetadata
  | some fill_value =>
  match env.codecChainFromMetadata metadata.codecs with
  | none => .error .CodecsCreateError
  | some codecs =>
  match env.storageTransformerChainFromMetadata
      metadata.storage_transformers with
  | none => .error .StorageTransformersCreateError
  | some storage_transformers =>
  match env.chunkKeyEncodingFromMetadata metadata.chunk_key_encoding with
  | none => .error .ChunkKeyEncodingCreateError
  | some chunk_key_encoding =>
  match metadata.dimension_names with
  | some dimension_names =>
    if dimension_names.length ≠ metadata.shape.length then
      .error (.InvalidDimensionNames dimension_names.length
        metadata.shape.length)
    else
      .ok ⟨p, metadata.shape, data_type, chunk_grid, chunk_key_encoding,
        fill_value, codecs, metadata.attributes, storage_transformers,
        metadata.dimension_names, metadata.additional_fields, true, true⟩
  | none =>
    .ok ⟨p, metadata.shape, data_type, chunk_grid, chunk_key_encoding,
      fill_value, codecs, metadata.attributes, storage_transformers,
      metadata.dimension_names, metadata.additional_fields, true, true⟩

/- ## Array::metadata (claim C7) -/

/-- Modelled from the spec: the metadata creators of the array's
components (`DataType::metadata`, `DataType::metadata_fill_value`,
`ChunkGrid::create_metadata`, `ChunkKeyEncoding::create_metadata`,
`CodecChain::create_metadatas` and
`StorageTransformerChain::create_metadatas`, all outside `src/`), and the
JSON serialisation of the injected `_zarrs` record
(description/repository/version, `src/array.rs` lines 353-363). -/
structure MetadataEnv (J DT CG KE CC ST FV : Type) where
  dataTypeMetadata : DT → J
  metadataFillValue : DT → FV → J
  chunkGridCreateMetadata : CG → J
  chunkKeyEncodingCreateMetadata : KE → J
  codecsCreateMetadatas : CC → List J
  storageTransformerCreateMetadatas : ST → List J
  zarrsMetadataJson : String → String → String → J

/-- Insertion into an attribute map (`serde_json::Map::insert`): the new
binding replaces any existing binding of the key. -/
def mapInsert {J : Type} (attrs : String → Option J) (key : String)
    (v : J) : String → Option J :=
  fun k => if k = key then some v else attrs k

/-- The `_zarrs` description string (`src/array.rs` line 360). -/
def zarrsDescription : String := "This array was created with zarrs"

/-- Embedding of `Array::metadata` (`src/array.rs` lines 349-386): build
the v3 metadata document from the array state, and when
`include_zarrs_metadata` is set first insert the `_zarrs` record into a
copy of the attributes.  The `CARGO_PKG_REPOSITORY` and
`CARGO_PKG_VERSION` build-environment values are parameters; the
`zarr_format`/`node_type` constants follow `ArrayMetadataV3::new`
(modelled from the spec by analogy with `GroupMetadataV3::new` in
`src/group/group_metadata.rs` lines 66-76). -/
def Array.metadata {J DT CG KE CC ST FV : Type}
    (env : MetadataEnv J DT CG KE CC ST FV) (repository version : String)
    (a : ArrayData J DT CG KE CC ST FV) : ArrayMetadataV3 J :=
  let attributes :=
    if a.include_zarrs_metadata then
      mapInsert a.attributes "_zarrs"
        (env.zarrsMetadataJson zarrsDescription repository version)
    else a.attributes
  { zarr_format := 3
    node_type := "array"
    shape := a.shape
    data_type := env.dataTypeMetadata a.data_type
    chunk_grid := env.chunkGridCreateMetadata a.chunk_grid
    chunk_key_encoding :=
      env.chunkKeyEncodingCreateMetadata a.chunk_key_encoding
    fill_value := env.metadataFillValue a.data_type a.fill_value
    codecs := env.codecsCreateMetadatas a.codecs
    attributes := attributes
    storage_transformers :=
      env.storageTransformerCreateMetadatas a.storage_transformers
    dimension_names := a.dimension_names
    additional_fields := a.additional_fields }

/-- The call shape of `Array::metadata`: the method takes `&self`, so it
returns the document together with the (unchanged) array it was read
from. -/
def Array.metadata_call {J DT CG KE CC ST FV : Type}
    (env : MetadataEnv J DT CG KE CC ST FV) (repository version : String)
    (a : ArrayData J DT CG KE CC ST FV) :
    ArrayMetadataV3 J × ArrayData J DT CG KE CC ST FV :=
  (Array.metadata env repository version a, a)

/-- A trivial metadata environment over `Nat`-coded components, used to
instantiate the C7 theorem at a concrete input. -/
def metadataEnvNat : MetadataEnv Nat Nat Nat Nat Nat Nat Nat :=
  ⟨fun _ => 0, fun _ _ => 0, fun _ => 0, fun _ => 0, fun _ => [],
   fun _ => [], fun _ _ _ => 7⟩

/-- A concrete array state over `Nat`-coded components with the
`include_zarrs_metadata` flag set. -/
def arrayDataNat : ArrayData Nat Nat Nat Nat Nat Nat Nat :=
  ⟨"/array", [2, 3], 0, 0, 0, 0, 0, (fun k => if k = "colour" then some 5
    else none), 0, none, [], true, true⟩

/- ## Array::chunk_mutex (claim C5) -/

/-- The chunk-lock table of an array (`src/array.rs` line 168,
`chunk_locks: Mutex<HashMap<Vec<u64>, Arc<Mutex<()>>>>`).  The map from
chunk coordinates to mutexes is an association list; each shared mutex
(`Arc<Mutex<()>>`) is identified by its allocation order (`next` counts
the allocations performed so far), so two table entries hold the same
mutex iff they carry the same identifier. -/
structure ChunkLocks where
  table : List (List Nat × Nat)
  next : Nat

/-- The empty chunk-lock table an array is constructed with
(`src/array.rs` line 245, `chunk_locks: parking_lot::Mutex::default()`). -/
def ChunkLocks.init : ChunkLocks := ⟨[], 0⟩

/-- Embedding of `Array::chunk_mutex` (`src/array.rs` lines 485-495):
while holding the outer table lock, return the mutex stored for the
coordinates, creating and inserting a fresh one if absent.  The operation
is serialised by the outer lock, so it is modelled as a sequential state
transformer; the returned `Nat` is the identity of the returned
`Arc`-shared mutex. -/
def chunk_mutex (s : ChunkLocks) (chunk_indices : List Nat) :
    Nat × ChunkLocks :=
  match s.table.lookup chunk_indices with
  | some m => (m, s)
  | none =>
    (s.next, ⟨(chunk_indices, s.next) :: s.table, s.next + 1⟩)

/-- Well-formedness of the chunk-lock table: every stored mutex identity
was allocated (it is below `next`) and distinct entries hold distinct
mutexes.  This holds for the initial table and is preserved by
`chunk_mutex`. -/
def ChunkLocks.WF (s : ChunkLocks) : Prop :=
  (∀ p ∈ s.table, p.2 < s.next) ∧
  s.table.Pairwise (fun p q => p.2 ≠ q.2)

/- ## unravel_index and ravel_indices (claim C10) -/

/-- The loop of `unravel_index` (`src/array.rs` lines 581-592) viewed from
the last dimension: the source walks `shape` in reverse, writing
`index % dim` and then dividing `index` by `dim`.  This helper yields
those digits innermost-dimension first. -/
def unravelRev (index : Nat) : List Nat → List Nat
  | [] => []
  | dim :: rest => index % dim :: unravelRev (index / dim) rest

/-- Embedding of `unravel_index` (`src/array.rs` lines 578-592): the
ND indices of a linearised index, outermost dimension first. -/
def unravel_index (index : Nat) (shape : List Nat) : List Nat :=
  (unravelRev index shape.reverse).reverse

/-- Embedding of `ravel_indices` (`src/array.rs` lines 594-605): walk the
zipped indices and shape from the last dimension, accumulating
`index += i * count; count *= s`. -/
def ravel_indices (indices shape : List Nat) : Nat :=
  ((indices.zip shape).reverse.foldl
      (fun p is => (p.1 + is.1 * p.2, p.2 * is.2)) (0, 1)).1

/- ## Config::default (claim C8) -/

/-- The global configuration record (`src/config.rs` lines 56-62). -/
structure Config where
  validate_checksums : Bool
  store_empty_chunks : Bool
  codec_concurrent_target : Nat
  chunk_concurrent_minimum : Nat
  experimental_codec_store_metadata_if_encode_only : Bool

/-- Embedding of `Config::default` (`src/config.rs` lines 64-79).  The
process-environment value `std::thread::available_parallelism()` is passed
in as a parameter. -/
def Config.mkDefault (available_parallelism : Nat) : Config :=
  let concurrency_multiply := 1
  let concurrency_add := 0
  { validate_checksums := true
    store_empty_chunks := false
    codec_concurrent_target :=
      available_parallelism * concurrency_multiply + concurrency_add
    chunk_concurrent_minimum := 4
    experimental_codec_store_metadata_if_encode_only := false }

end Zarrs

namespace Zarrs

/-- C3: `meta_key` maps the root node path to `zarr.json`, and any other
node path `/a/b` (a string beginning with a slash) to `a/b/zarr.json`
(the leading slash removed and `/zarr.json` appended). -/
theorem meta_key_spec :
    meta_key "/" = "zarr.json" ∧
    ∀ path : String, path.data.head? = some ('/') → path ≠ "/" →
      meta_key path = String.mk (path.data.drop 1) ++ "/zarr.json" := by
  refine ⟨rfl, fun path hs hne => ?_⟩
  unfold meta_key stripLeadingSlash
  rw [if_neg hne]
  match hd : path.data with
  | [] => simp [hd] at hs
  | c :: rest =>
    rw [hd] at hs
    simp only [List.head?] at hs
    injection hs with hc
    subst hc
    simp [hd]

/-- Witness for C3 at the concrete node path `/a/b`. -/
theorem meta_key_spec_witness :
    ("/a/b" : String).data.head? = some ('/') ∧ ("/a/b" : String) ≠ "/" ∧
    meta_key "/a/b" = "a/b/zarr.json" :=
  ⟨by decide, by decide, meta_key_spec.2 "/a/b" (by decide) (by decide)⟩

/-- C4: for a decoded representation with a known size bound `n` (fixed or
bounded), `ZstdCodec::compute_encoded_size` returns a bounded size equal to
`n + 22 + 3 * ceil(n / 1000)`; for an unbounded representation it returns
an unbounded size. -/
theorem zstd_compute_encoded_size_spec (c : ZstdCodec)
    (r : BytesRepresentation) :
    (∀ n, r.size = some n →
      c.compute_encoded_size r =
        .BoundedSize (n + 22 + 3 * (n ⌈/⌉ 1000))) ∧
    (r.size = none → c.compute_encoded_size r = .UnboundedSize) := by
  constructor
  · intro n hn
    unfold ZstdCodec.compute_encoded_size
    rw [hn]
    rw [Nat.ceilDiv_eq_add_pred_div]
  · intro hn
    unfold ZstdCodec.compute_encoded_size
    rw [hn]

/-- Witness for C4 at a fixed decoded size of 1 byte:
1 + 22 + 3 * ceil(1/1000) = 26. -/
theorem zstd_compute_encoded_size_spec_witness :
    (BytesRepresentation.FixedSize 1).size = some 1 ∧
    (ZstdCodec.mk 0 false).compute_encoded_size (.FixedSize 1) =
      .BoundedSize 26 :=
  ⟨rfl, by
    have h := (zstd_compute_encoded_size_spec (ZstdCodec.mk 0 false)
      (.FixedSize 1)).1 1 rfl
    rw [h]
    norm_num [Nat.ceilDiv_eq_add_pred_div]⟩

/-- C8: the default global configuration has `validate_checksums = true`,
`store_empty_chunks = false`, `chunk_concurrent_minimum = 4`,
`codec_concurrent_target` equal to the available parallelism, and
`experimental_codec_store_metadata_if_encode_only = false`. -/
theorem config_default_spec (available_parallelism : Nat) :
    (Config.mkDefault available_parallelism).validate_checksums = true ∧
    (Config.mkDefault available_parallelism).store_empty_chunks = false ∧
    (Config.mkDefault available_parallelism).codec_concurrent_target =
      available_parallelism ∧
    (Config.mkDefault available_parallelism).chunk_concurrent_minimum = 4 ∧
    (Config.mkDefault available_parallelism).experimental_codec_store_metadata_if_encode_only = false := by
  refine ⟨rfl, rfl, ?_, rfl, rfl⟩
  simp [Config.mkDefault]

/-- Witness for C8 with 8 available threads. -/
theorem config_default_spec_witness :
    (Config.mkDefault 8).codec_concurrent_target = 8 :=
  (config_default_spec 8).2.2.1

/-- A flushed group lists, for each requested range, exactly the direct
per-key query result. -/
theorem flushKey_eq_map {B V : Type} (store : String → Option V)
    (extract : V → B → V) (key : String) (brs : List B) :
    flushKey store extract key brs =
      brs.map (fun b => (store key).map (fun v => extract v b)) := by
  unfold flushKey get_partial_values_key
  cases h : store key with
  | none => simp [h]
  | some v => simp [h]

/-- Continuing the batching loop from a pending group `(key, brs)` flushes
that group and then produces the pointwise results of the remaining
entries. -/
theorem batch_fold_spec {B V : Type} (store : String → Option V)
    (extract : V → B → V) :
    ∀ (krs : List (StoreKeyRange B)) (key : String) (brs : List B)
      (out : List (Option V)),
    finishBatch store extract
        (krs.foldl (batchStep store extract) ⟨out, some key, brs⟩) =
      out ++ flushKey store extract key brs ++
        get_partial_values_pointwise store extract krs := by
  intro krs
  induction krs with
  | nil =>
    intro key brs out
    unfold finishBatch get_partial_values_pointwise
    cases hb : brs with
    | nil => simp [flushKey_eq_map]
    | cons b rest => simp
  | cons kr rest ih =>
    intro key brs out
    simp only [List.foldl_cons]
    by_cases h : kr.key = key
    · have hstep : batchStep store extract ⟨out, some key, brs⟩ kr =
          ⟨out, some key, brs ++ [kr.byte_range]⟩ := by
        unfold batchStep
        simp [h]
      rw [hstep, ih]
      rw [flushKey_eq_map, flushKey_eq_map]
      simp only [List.map_append, List.map_cons, List.map_nil,
        get_partial_values_pointwise, h, List.append_assoc,
        List.cons_append, List.nil_append]
    · have hstep : batchStep store extract ⟨out, some key, brs⟩ kr =
          ⟨out ++ flushKey store extract key brs, some kr.key,
            [kr.byte_range]⟩ := by
        unfold batchStep
        simp [h]
      rw [hstep, ih]
      rw [flushKey_eq_map store extract kr.key]
      simp only [List.map_cons, List.map_nil, get_partial_values_pointwise,
        List.append_assoc, List.cons_append, List.nil_append, List.map_map]

/-- C6: the default `get_partial_values_batched_by_key` returns one result
per input entry, in input order, each equal to a direct per-key
`get_partial_values_key` query for that entry's byte range (`none` when
the key is absent, otherwise the bytes of that range). -/
theorem get_partial_values_batched_by_key_spec {B V : Type}
    (store : String → Option V) (extract : V → B → V)
    (key_ranges : List (StoreKeyRange B)) :
    get_partial_values_batched_by_key store extract key_ranges =
      get_partial_values_pointwise store extract key_ranges := by
  cases key_ranges with
  | nil => rfl
  | cons kr rest =>
    unfold get_partial_values_batched_by_key
    simp only [List.foldl_cons]
    have h1 : batchStep store extract ⟨[], none, []⟩ kr =
        ⟨[], some kr.key, [kr.byte_range]⟩ := by
      unfold batchStep
      simp
    rw [h1, batch_fold_spec]
    rw [flushKey_eq_map]
    simp [get_partial_values_pointwise]

/-- Witness for C6: two ranges of a present key and one range of an absent
key, in one batch. -/
theorem get_partial_values_batched_by_key_spec_witness :
    get_partial_values_batched_by_key
        (fun k => if k = "x" then some ([1, 2, 3, 4] : Bytes) else none)
        (fun v br => (v.drop br.1).take br.2)
        [⟨"x", (0, 2)⟩, ⟨"x", (2, 2)⟩, ⟨"y", (0, 1)⟩] =
      [some [1, 2], some [3, 4], none] := by
  rw [get_partial_values_batched_by_key_spec]
  decide

/-- Folding `patchesForKey` over an appended list splits into two folds. -/
theorem patchesForKey_append (a b : List StoreKeyStartValue) (k : String)
    (i : Bytes) :
    patchesForKey (a ++ b) k i = patchesForKey b k (patchesForKey a k i) := by
  simp [patchesForKey, List.foldl_append]

/-- Entries that all miss `k` leave the accumulator unchanged. -/
theorem patchesForKey_of_none (l : List StoreKeyStartValue) (k : String)
    (i : Bytes) (h : ∀ f ∈ l, f.key ≠ k) : patchesForKey l k i = i := by
  induction l generalizing i with
  | nil => rfl
  | cons e rest ih =>
    have he : e.key ≠ k := h e (List.mem_cons_self e rest)
    simp only [patchesForKey, List.foldl_cons, if_neg he]
    exact ih i fun f hf => h f (List.mem_cons_of_mem e hf)

/-- Entries that all hit `k` reduce to the unfiltered fold used inside
`set_partial_values`. -/
theorem patchesForKey_of_all (l : List StoreKeyStartValue) (k : String)
    (i : Bytes) (h : ∀ f ∈ l, f.key = k) :
    patchesForKey l k i =
      l.foldl (fun b f => applyPatch b f.start f.value) i := by
  induction l generalizing i with
  | nil => rfl
  | cons e rest ih =>
    have he : e.key = k := h e (List.mem_cons_self e rest)
    simp only [patchesForKey, List.foldl_cons, if_pos he]
    exact ih _ fun f hf => h f (List.mem_cons_of_mem e hf)

/-- C2: after the default `set_partial_values`, the value at each key
referenced by the entry list equals the prior value (empty when the key
was absent) with exactly the patches naming that key applied in list
order; keys not referenced in the list are unchanged. -/
theorem set_partial_values_spec (s : Store)
    (entries : List StoreKeyStartValue) (k : String) :
    set_partial_values s entries k =
      if entries.any (fun f => f.key == k) then
        some (patchesForKey entries k ((s k).getD []))
      else s k := by
  suffices h : ∀ (n : Nat) (entries : List StoreKeyStartValue),
      entries.length ≤ n → ∀ (s : Store) (k : String),
      set_partial_values s entries k =
        if entries.any (fun f => f.key == k) then
          some (patchesForKey entries k ((s k).getD []))
        else s k by
    exact h entries.length entries le_rfl s k
  intro n
  induction n with
  | zero =>
    intro entries hlen s k
    have : entries = [] := List.eq_nil_of_length_eq_zero (Nat.le_zero.1 hlen)
    subst this
    simp [set_partial_values]
  | succ n ihn =>
    intro entries hlen s k
    match entries with
    | [] => simp [set_partial_values]
    | e :: rest =>
    simp only [set_partial_values]
    set key := e.key with hkey
    set T := rest.takeWhile (fun f => f.key == key) with hT
    set D := rest.dropWhile (fun f => f.key == key) with hD
    have hTD : T ++ D = rest := List.takeWhile_append_dropWhile _ rest
    have hTmem : ∀ f ∈ T, f.key = key := by
      intro f hf
      have := List.mem_takeWhile_imp hf
      simpa using this
    set bytes1 :=
      (e :: T).foldl (fun b f => applyPatch b f.start f.value)
        ((s key).getD []) with hb1
    have hDlen : D.length ≤ n := by
      have h1 : D.length ≤ rest.length := (List.dropWhile_sublist _).length_le
      have h2 : rest.length ≤ n := by
        simpa [Nat.succ_le_succ_iff] using hlen
      exact le_trans h1 h2
    rw [ihn D hDlen]
    by_cases hk : key = k
    · subst hk
      have hs1 : storeSet s key bytes1 key = some bytes1 := by
        simp [storeSet]
      have hgoal :
          patchesForKey (e :: rest) key ((s key).getD []) =
            patchesForKey D key bytes1 := by
        have h1 : (e :: rest) = (e :: T) ++ D := by
          simp [← hTD]
        rw [h1, patchesForKey_append]
        congr 1
        rw [patchesForKey_of_all]
        intro f hf
        rcases List.mem_cons.1 hf with h | h
        · subst h; rfl
        · exact hTmem f h
      have hany : (e :: rest).any (fun f => f.key == key) = true := by
        simp
      rw [hany, if_pos rfl, hgoal, hs1]
      by_cases hDany : D.any (fun f => f.key == key) = true
      · rw [if_pos hDany]
        simp
      · rw [if_neg hDany]
        have : patchesForKey D key bytes1 = bytes1 := by
          apply patchesForKey_of_none
          intro f hf
          have := List.any_eq_false.1 (Bool.eq_false_iff.2 hDany) f hf
          simpa using this
        simp [this]
    · have hs1 : storeSet s key bytes1 k = s k := by
        unfold storeSet
        rw [if_neg (fun h => hk h.symm)]
      rw [hs1]
      have hTnone : ∀ f ∈ e :: T, f.key ≠ k := by
        intro f hf
        rcases List.mem_cons.1 hf with h | h
        · subst h; exact hk
        · rw [hTmem f h]; exact hk
      have hanyeq : (e :: rest).any (fun f => f.key == k) =
          D.any (fun f => f.key == k) := by
        have h1 : (e :: rest) = (e :: T) ++ D := by
          simp [← hTD]
        rw [h1]
        simp only [List.any_append, List.any_cons]
        have he : (e.key == k) = false := by
          simpa using hTnone e (List.mem_cons_self e T)
        have hTa : T.any (fun f => f.key == k) = false := by
          apply List.any_eq_false.2
          intro f hf
          simpa using hTnone f (List.mem_cons_of_mem e hf)
        rw [he, hTa]
        simp
      rw [hanyeq]
      by_cases hDany : D.any (fun f => f.key == k) = true
      · rw [if_pos hDany, if_pos hDany]
        have h1 : (e :: rest) = (e :: T) ++ D := by
          simp [← hTD]
        rw [h1, patchesForKey_append, patchesForKey_of_none _ _ _ hTnone]
      · rw [if_neg hDany, if_neg hDany]

/-- Once the accumulator is false, the loop of `erase_values` never calls
`erase` again and the store is unchanged. -/
theorem eraseValuesLoop_false (s : KeySet) (keys : List String) :
    eraseValuesLoop s false keys = (false, s) := by
  induction keys with
  | nil => rfl
  | cons key rest ih => simpa [eraseValuesLoop] using ih

/-- C9 counterexample: with a store containing only the key `b`, the
default `erase_values` over `[a, b]` leaves `b` present, so `erase` was
not invoked on every listed key (a direct erase of `b` on that store
returns true and removes it, as the second conjunct shows). -/
theorem erase_values_counterexample :
    (erase_values (fun k => k == "b") ["a", "b"]).2 "b" = true ∧
    (erase (fun k => k == "b") "b").2 "b" = false := by
  constructor
  · decide
  · decide

/-- C9 (amended): `erase_values` invokes `erase` on the keys in order only
while every erase so far returned true — the keys after the first failed
erase are skipped — and it returns true iff every sequential erase
returned true; the final store is the input store with exactly the
actually-erased prefix of keys removed. -/
theorem erase_values_amended (s : KeySet) (keys : List String) :
    (erase_values s keys).1 = seqErasesOk s keys ∧
    ∀ k, (erase_values s keys).2 k =
      removeKeys s (keys.take (seqEraseCount s keys)) k := by
  induction keys generalizing s with
  | nil => exact ⟨rfl, fun k => rfl⟩
  | cons key rest ih =>
    have hstep : erase_values s (key :: rest) =
        eraseValuesLoop (erase s key).2 (s key) rest := by
      simp [erase_values, eraseValuesLoop, erase]
    by_cases h : s key = true
    · constructor
      · rw [hstep, h]
        have h1 := (ih ((erase s key).2)).1
        have h2 : seqErasesOk s (key :: rest) =
            seqErasesOk (erase s key).2 rest := by
          simp only [seqErasesOk, h, Bool.true_and]
        rw [h2]
        exact h1
      · intro k
        rw [hstep, h]
        have hc : seqEraseCount s (key :: rest) =
            seqEraseCount ((erase s key).2) rest + 1 := by
          simp only [seqEraseCount, if_pos h, Nat.add_comm]
        rw [hc, List.take_succ_cons]
        exact (ih ((erase s key).2)).2 k
    · have hfalse : s key = false := Bool.eq_false_iff.2 h
      constructor
      · rw [hstep, hfalse, eraseValuesLoop_false]
        simp only [seqErasesOk, hfalse, Bool.false_and]
      · intro k
        rw [hstep, hfalse, eraseValuesLoop_false]
        have hc : seqEraseCount s (key :: rest) = 1 := by
          simp only [seqEraseCount, if_neg h]
        rw [hc]
        rfl

/-- Witness for C9 (amended) at the counterexample inputs: the result is
the sequential-erase conjunction, and the final store is the store with
only the actually-erased prefix (here just `a`) removed. -/
theorem erase_values_amended_witness :
    (erase_values (fun k => k == "b") ["a", "b"]).1 =
      seqErasesOk (fun k => k == "b") ["a", "b"] ∧
    (erase_values (fun k => k == "b") ["a", "b"]).2 "b" =
      removeKeys (fun k => k == "b")
        (["a", "b"].take
          (seqEraseCount (fun k => k == "b") ["a", "b"])) "b" :=
  ⟨(erase_values_amended (fun k => k == "b") ["a", "b"]).1,
   (erase_values_amended (fun k => k == "b") ["a", "b"]).2 "b"⟩

/-- The additional-fields validator accepts exactly the field lists whose
entries all carry `must_understand: false`. -/
theorem validateAdditionalFields_iff (fields : List (String × Bool)) :
    validateAdditionalFields fields = true ↔ ∀ f ∈ fields, f.2 = false := by
  simp [validateAdditionalFields]

/-- C1: with a valid node path, `new_with_metadata` constructs an array
iff the metadata passes every validation — `zarr_format` is 3,
`node_type` is `array`, every additional field carries
`must_understand: false`, the data type, chunk grid, codecs, storage
transformers and chunk key encoding can be created, the fill value is
valid for the data type, the chunk grid dimensionality equals the shape
rank, and the dimension names (when present) match the shape rank; it
returns an error exactly when one of those conditions fails. -/
theorem new_with_metadata_spec {J DT CG KE CC ST FV : Type}
    (env : PluginEnv J DT CG KE CC ST FV) (path : String)
    (m : ArrayMetadataV3 J) (hpath : (NodePath.new path).isSome = true) :
    (new_with_metadata env path m).isOk = true ↔
      (m.zarr_format = 3 ∧ m.node_type = "array" ∧
       (∀ f ∈ m.additional_fields, f.2 = false) ∧
       (∃ dt, env.dataTypeFromMetadata m.data_type = some dt ∧
         env.fillValueFromMetadata dt m.fill_value ≠ none) ∧
       (∃ cg, env.chunkGridFromMetadata m.chunk_grid = some cg ∧
         env.chunkGridDimensionality cg = m.shape.length) ∧
       env.codecChainFromMetadata m.codecs ≠ none ∧
       env.storageTransformerChainFromMetadata m.storage_transformers ≠
         none ∧
       env.chunkKeyEncodingFromMetadata m.chunk_key_encoding ≠ none ∧
       (∀ dn, m.dimension_names = some dn →
         dn.length = m.shape.length)) := by
  cases hNP : NodePath.new path with
  | none => rw [hNP] at hpath; simp at hpath
  | some p =>
  by_cases h1 : m.zarr_format = 3
  case neg =>
    have hv : m.validate_format = false := by
      simp [ArrayMetadataV3.validate_format, h1]
    have hres : new_with_metadata env path m =
        Except.error (.InvalidZarrFormat m.zarr_format) := by
      simp [new_with_metadata, hNP, hv]
    rw [hres]
    constructor
    · exact fun hc => Bool.noConfusion hc
    · exact fun hc => (h1 hc.1).elim
  by_cases h2 : m.node_type = "array"
  case neg =>
    have hv : m.validate_format = true := by
      simp [ArrayMetadataV3.validate_format, h1]
    have hn : m.validate_node_type = false := by
      simp [ArrayMetadataV3.validate_node_type, h2]
    have hres : new_with_metadata env path m =
        Except.error (.InvalidNodeType m.node_type) := by
      simp [new_with_metadata, hNP, hv, hn]
    rw [hres]
    constructor
    · exact fun hc => Bool.noConfusion hc
    · exact fun hc => (h2 hc.2.1).elim
  have hv : m.validate_format = true := by
    simp [ArrayMetadataV3.validate_format, h1]
  have hn : m.validate_node_type = true := by
    simp [ArrayMetadataV3.validate_node_type, h2]
  by_cases h3 : validateAdditionalFields m.additional_fields = true
  case neg =>
    have ha : validateAdditionalFields m.additional_fields = false :=
      Bool.eq_false_iff.2 h3
    have hres : new_with_metadata env path m =
        Except.error .UnsupportedAdditionalFieldError := by
      simp [new_with_metadata, hNP, hv, hn, ha]
    rw [hres]
    constructor
    · exact fun hc => Bool.noConfusion hc
    · exact fun hc =>
        (h3 ((validateAdditionalFields_iff _).2 hc.2.2.1)).elim
  cases hdt : env.dataTypeFromMetadata m.data_type with
  | none =>
    have hres : new_with_metadata env path m =
        Except.error .DataTypeCreateError := by
      simp [new_with_metadata, hNP, hv, hn, h3, hdt]
    rw [hres]
    constructor
    · exact fun hc => Bool.noConfusion hc
    · rintro ⟨-, -, -, ⟨dt, hdt2, -⟩, -⟩
      exact Option.noConfusion hdt2
  | some dt =>
  cases hcg : env.chunkGridFromMetadata m.chunk_grid with
  | none =>
    have hres : new_with_metadata env path m =
        Except.error .ChunkGridCreateError := by
      simp [new_with_metadata, hNP, hv, hn, h3, hdt, hcg]
    rw [hres]
    constructor
    · exact fun hc => Bool.noConfusion hc
    · rintro ⟨-, -, -, -, ⟨cg, hcg2, -⟩, -⟩
      exact Option.noConfusion hcg2
  | some cg =>
  by_cases hdim : env.chunkGridDimensionality cg = m.shape.length
  case neg =>
    have hres : new_with_metadata env path m =
        Except.error (.InvalidChunkGridDimensionality
          (env.chunkGridDimensionality cg) m.shape.length) := by
      simp [new_with_metadata, hNP, hv, hn, h3, hdt, hcg, hdim]
    rw [hres]
    constructor
    · exact fun hc => Bool.noConfusion hc
    · rintro ⟨-, -, -, -, ⟨cg2, hcg2, hdim2⟩, -⟩
      cases hcg2
      exact (hdim hdim2).elim
  cases hfv : env.fillValueFromMetadata dt m.fill_value with
  | none =>
    have hres : new_with_metadata env path m =
        Except.error .InvalidFillValueMetadata := by
      simp [new_with_metadata, hNP, hv, hn, h3, hdt, hcg, hdim, hfv]
    rw [hres]
    constructor
    · exact fun hc => Bool.noConfusion hc
    · rintro ⟨-, -, -, ⟨dt2, hdt2, hfv2⟩, -⟩
      cases hdt2
      exact (hfv2 hfv).elim
  | some fv =>
  cases hcc : env.codecChainFromMetadata m.codecs with
  | none =>
    have hres : new_with_metadata env path m =
        Except.error .CodecsCreateError := by
      simp [new_with_metadata, hNP, hv, hn, h3, hdt, hcg, hdim, hfv, hcc]
    rw [hres]
    constructor
    · exact fun hc => Bool.noConfusion hc
    · rintro ⟨-, -, -, -, -, hcc2, -⟩
      exact (hcc2 rfl).elim
  | some cc =>
  cases hst : env.storageTransformerChainFromMetadata
      m.storage_transformers with
  | none =>
    have hres : new_with_metadata env path m =
        Except.error .StorageTransformersCreateError := by
      simp [new_with_metadata, hNP, hv, hn, h3, hdt, hcg, hdim, hfv,
        hcc, hst]
    rw [hres]
    constructor
    · exact fun hc => Bool.noConfusion hc
    · rintro ⟨-, -, -, -, -, -, hst2, -⟩
      exact (hst2 rfl).elim
  | some st =>
  cases hke : env.chunkKeyEncodingFromMetadata m.chunk_key_encoding with
  | none =>
    have hres : new_with_metadata env path m =
        Except.error .ChunkKeyEncodingCreateError := by
      simp [new_with_metadata, hNP, hv, hn, h3, hdt, hcg, hdim, hfv,
        hcc, hst, hke]
    rw [hres]
    constructor
    · exact fun hc => Bool.noConfusion hc
    · rintro ⟨-, -, -, -, -, -, -, hke2, -⟩
      exact (hke2 rfl).elim
  | some ke =>
  cases hdn : m.dimension_names with
  | none =>
    have hres : new_with_metadata env path m =
        Except.ok ⟨p, m.shape, dt, cg, ke, fv, cc, m.attributes, st,
          m.dimension_names, m.additional_fields, true, true⟩ := by
      simp [new_with_metadata, hNP, hv, hn, h3, hdt, hcg, hdim, hfv,
        hcc, hst, hke, hdn]
    rw [hres]
    constructor
    · intro _
      refine ⟨h1, h2, (validateAdditionalFields_iff _).1 h3,
        ⟨dt, rfl, ?_⟩, ⟨cg, rfl, hdim⟩, ?_, ?_, ?_, ?_⟩
      · rw [hfv]; exact fun hc => Option.noConfusion hc
      · exact fun hc => Option.noConfusion hc
      · exact fun hc => Option.noConfusion hc
      · exact fun hc => Option.noConfusion hc
      · intro dn hdn2
        exact Option.noConfusion hdn2
    · intro _
      rfl
  | some dn =>
  by_cases hlen : dn.length = m.shape.length
  case neg =>
    have hres : new_with_metadata env path m =
        Except.error (.InvalidDimensionNames dn.length
          m.shape.length) := by
      simp [new_with_metadata, hNP, hv, hn, h3, hdt, hcg, hdim, hfv,
        hcc, hst, hke, hdn, hlen]
    rw [hres]
    constructor
    · exact fun hc => Bool.noConfusion hc
    · rintro ⟨-, -, -, -, -, -, -, -, hdn2⟩
      exact (hlen (hdn2 dn rfl)).elim
  case pos =>
    have hres : new_with_metadata env path m =
        Except.ok ⟨p, m.shape, dt, cg, ke, fv, cc, m.attributes, st,
          m.dimension_names, m.additional_fields, true, true⟩ := by
      simp [new_with_metadata, hNP, hv, hn, h3, hdt, hcg, hdim, hfv,
        hcc, hst, hke, hdn, hlen]
    rw [hres]
    constructor
    · intro _
      refine ⟨h1, h2, (validateAdditionalFields_iff _).1 h3,
        ⟨dt, rfl, ?_⟩, ⟨cg, rfl, hdim⟩, ?_, ?_, ?_, ?_⟩
      · rw [hfv]; exact fun hc => Option.noConfusion hc
      · exact fun hc => Option.noConfusion hc
      · exact fun hc => Option.noConfusion hc
      · exact fun hc => Option.noConfusion hc
      · intro dn2 hdn2
        cases hdn2
        exact hlen
    · intro _
      rfl

/-- Witness for C1: a trivially satisfiable plugin environment and a
minimal valid metadata document at the root node path. -/
theorem new_with_metadata_spec_witness :
    ((NodePath.new "/").isSome = true) ∧
    ((new_with_metadata
        (⟨fun _ => some 0, fun _ => some 0, fun _ => 0,
          fun _ _ => some 0, fun _ => some 0, fun _ => some 0,
          fun _ => some 0⟩ :
          PluginEnv Nat Nat Nat Nat Nat Nat Nat) "/"
        ⟨3, "array", [], 0, 0, 0, 0, [], (fun _ => none), [], none,
          []⟩).isOk = true ↔
      ((3 : Nat) = 3 ∧ "array" = "array" ∧
       (∀ f ∈ ([] : List (String × Bool)), f.2 = false) ∧
       (∃ dt, some 0 = some dt ∧ (some 0 : Option Nat) ≠ none) ∧
       (∃ cg, some 0 = some cg ∧
         (0 : Nat) = ([] : List Nat).length) ∧
       (some 0 : Option Nat) ≠ none ∧ (some 0 : Option Nat) ≠ none ∧
       (some 0 : Option Nat) ≠ none ∧
       (∀ dn, (none : Option (List (Option String))) = some dn →
         dn.length = ([] : List Nat).length))) :=
  ⟨rfl, new_with_metadata_spec _ "/" _ rfl⟩

/-- C7: `Array::metadata` emits a v3 document whose shape, data type,
chunk grid, chunk key encoding, fill value, codecs, storage transformers,
dimension names and additional fields equal the array's current state;
when `include_zarrs_metadata` is true its attributes are the array's
attributes plus the injected `_zarrs` record, when false they are the
array's attributes exactly; the array itself is unchanged by the call. -/
theorem array_metadata_spec {J DT CG KE CC ST FV : Type}
    (env : MetadataEnv J DT CG KE CC ST FV) (repository version : String)
    (a : ArrayData J DT CG KE CC ST FV) :
    (Array.metadata env repository version a).shape = a.shape ∧
    (Array.metadata env repository version a).zarr_format = 3 ∧
    (Array.metadata env repository version a).node_type = "array" ∧
    (Array.metadata env repository version a).data_type =
      env.dataTypeMetadata a.data_type ∧
    (Array.metadata env repository version a).chunk_grid =
      env.chunkGridCreateMetadata a.chunk_grid ∧
    (Array.metadata env repository version a).chunk_key_encoding =
      env.chunkKeyEncodingCreateMetadata a.chunk_key_encoding ∧
    (Array.metadata env repository version a).fill_value =
      env.metadataFillValue a.data_type a.fill_value ∧
    (Array.metadata env repository version a).codecs =
      env.codecsCreateMetadatas a.codecs ∧
    (Array.metadata env repository version a).storage_transformers =
      env.storageTransformerCreateMetadatas a.storage_transformers ∧
    (Array.metadata env repository version a).dimension_names =
      a.dimension_names ∧
    (Array.metadata env repository version a).additional_fields =
      a.additional_fields ∧
    (a.include_zarrs_metadata = true →
      ∀ k, (Array.metadata env repository version a).attributes k =
        if k = "_zarrs" then
          some (env.zarrsMetadataJson zarrsDescription repository version)
        else a.attributes k) ∧
    (a.include_zarrs_metadata = false →
      (Array.metadata env repository version a).attributes =
        a.attributes) ∧
    (Array.metadata_call env repository version a).2 = a := by
  refine ⟨rfl, rfl, rfl, rfl, rfl, rfl, rfl, rfl, rfl, rfl, rfl,
    ?_, ?_, rfl⟩
  · intro h k
    simp [Array.metadata, mapInsert, h]
  · intro h
    simp [Array.metadata, h]

/-- Witness for C7 at a concrete array with the zarrs-metadata flag set:
the emitted attributes hold the injected `_zarrs` record and keep the
user attribute `colour`. -/
theorem array_metadata_spec_witness :
    arrayDataNat.include_zarrs_metadata = true ∧
    (∀ k, ArrayMetadataV3.attributes
        (Array.metadata metadataEnvNat "repo" "0.1" arrayDataNat) k =
      if k = "_zarrs" then
        some (metadataEnvNat.zarrsMetadataJson zarrsDescription "repo"
          "0.1")
      else arrayDataNat.attributes k) :=
  ⟨rfl, (array_metadata_spec metadataEnvNat "repo" "0.1"
    arrayDataNat).2.2.2.2.2.2.2.2.2.2.2.1 rfl⟩

/-- A successful association-list lookup exposes a table entry. -/
theorem lookup_mem {α β : Type} [BEq α] [LawfulBEq α] {l : List (α × β)}
    {k : α} {b : β} (h : l.lookup k = some b) : (k, b) ∈ l := by
  obtain ⟨l₁, l₂, rfl, -⟩ := List.lookup_eq_some_iff.1 h
  exact List.mem_append.2 (Or.inr (List.mem_cons_self _ _))

/-- C5: `chunk_mutex` returns the mutex recorded in the chunk-lock table
for the given coordinates, creating and inserting it if absent (first
conjunct); a repeated call with equal coordinates on the same table
returns the same mutex (second conjunct); on a well-formed table, calls
with distinct coordinates return distinct mutexes (third conjunct); the
initial table of a new array is well-formed and `chunk_mutex` preserves
well-formedness (last conjuncts). -/
theorem chunk_mutex_spec :
    (∀ (s : ChunkLocks) (c : List Nat),
      ((chunk_mutex s c).2).table.lookup c = some (chunk_mutex s c).1) ∧
    (∀ (s : ChunkLocks) (c : List Nat),
      (chunk_mutex (chunk_mutex s c).2 c).1 = (chunk_mutex s c).1) ∧
    (∀ (s : ChunkLocks) (c c' : List Nat), s.WF → c ≠ c' →
      (chunk_mutex (chunk_mutex s c).2 c').1 ≠ (chunk_mutex s c).1) ∧
    ChunkLocks.init.WF ∧
    (∀ (s : ChunkLocks) (c : List Nat), s.WF →
      ((chunk_mutex s c).2).WF) := by
  have hrec : ∀ (s : ChunkLocks) (c : List Nat),
      ((chunk_mutex s c).2).table.lookup c = some (chunk_mutex s c).1 := by
    intro s c
    match h : s.table.lookup c with
    | some m => simp [chunk_mutex, h]
    | none => simp [chunk_mutex, h]
  have hsame : ∀ (s : ChunkLocks) (c : List Nat),
      (chunk_mutex (chunk_mutex s c).2 c).1 = (chunk_mutex s c).1 := by
    intro s c
    have h := hrec s c
    set p := chunk_mutex s c with hp
    simp only [chunk_mutex, h]
  refine ⟨hrec, hsame, ?_, ?_, ?_⟩
  · intro s c c' hWF hne
    match h1 : s.table.lookup c with
    | some m1 =>
      have e1 : chunk_mutex s c = (m1, s) := by simp [chunk_mutex, h1]
      rw [e1]
      match h2 : s.table.lookup c' with
      | some m2 =>
        have e2 : chunk_mutex s c' = (m2, s) := by simp [chunk_mutex, h2]
        simp only [e2]
        have hm1 : (c, m1) ∈ s.table := lookup_mem h1
        have hm2 : ((c', m2) : List Nat × Nat) ∈ s.table := lookup_mem h2
        have hsym : Symmetric (fun p q : List Nat × Nat => p.2 ≠ q.2) :=
          fun p q hpq he => hpq he.symm
        have hneq : ((c', m2) : List Nat × Nat) ≠ (c, m1) :=
          fun hcontra => hne (congrArg Prod.fst hcontra).symm
        exact hWF.2.forall hsym hm2 hm1 hneq
      | none =>
        have e2 : chunk_mutex s c' =
            (s.next, ⟨(c', s.next) :: s.table, s.next + 1⟩) := by
          simp [chunk_mutex, h2]
        simp only [e2]
        have hlt : m1 < s.next := hWF.1 (c, m1) (lookup_mem h1)
        exact fun hEq => absurd hEq.symm (Nat.ne_of_lt hlt)
    | none =>
      have e1 : chunk_mutex s c =
          (s.next, ⟨(c, s.next) :: s.table, s.next + 1⟩) := by
        simp [chunk_mutex, h1]
      rw [e1]
      have hbeq : (c' == c) = false :=
        beq_eq_false_iff_ne.2 (fun hcc => hne hcc.symm)
      have hlk : ((c, s.next) :: s.table).lookup c' = s.table.lookup c' := by
        simp [List.lookup_cons, hbeq]
      match h2 : s.table.lookup c' with
      | some m2 =>
        simp only [chunk_mutex, hlk, h2]
        exact Nat.ne_of_lt (hWF.1 (c', m2) (lookup_mem h2))
      | none =>
        simp only [chunk_mutex, hlk, h2]
        exact Nat.succ_ne_self s.next
  · exact ⟨fun p hp => absurd hp (List.not_mem_nil p), List.Pairwise.nil⟩
  · intro s c hWF
    match h : s.table.lookup c with
    | some m => simpa [chunk_mutex, h] using hWF
    | none =>
      simp only [chunk_mutex, h]
      unfold ChunkLocks.WF
      constructor
      · intro p hp
        rcases List.mem_cons.1 hp with h1 | h1
        · rw [h1]
          exact Nat.lt_succ_self s.next
        · exact Nat.lt_succ_of_lt (hWF.1 p h1)
      · refine List.Pairwise.cons ?_ hWF.2
        intro q hq
        exact (Nat.ne_of_lt (hWF.1 q hq)).symm

/-- Witness for C5: on a fresh table, requesting the mutex for chunk
coordinates 0 and then 1 yields distinct mutexes. -/
theorem chunk_mutex_spec_witness :
    ChunkLocks.init.WF ∧ ([0] : List Nat) ≠ [1] ∧
    (chunk_mutex (chunk_mutex ChunkLocks.init [0]).2 [1]).1 ≠
      (chunk_mutex ChunkLocks.init [0]).1 :=
  ⟨chunk_mutex_spec.2.2.2.1, by decide,
   chunk_mutex_spec.2.2.1 ChunkLocks.init [0] [1]
     chunk_mutex_spec.2.2.2.1 (by decide)⟩

/-- Unravelling yields one digit per dimension. -/
theorem unravelRev_length : ∀ (n : Nat) (l : List Nat),
    (unravelRev n l).length = l.length := by
  intro n l
  induction l generalizing n with
  | nil => rfl
  | cons d rest ih => simp [unravelRev, ih]

/-- Zipping two reversed lists of equal length reverses the zip. -/
theorem zip_reverse_of_length_eq {α β : Type} :
    ∀ (l₁ : List α) (l₂ : List β), l₁.length = l₂.length →
      l₁.reverse.zip l₂.reverse = (l₁.zip l₂).reverse := by
  intro l₁
  induction l₁ with
  | nil =>
    intro l₂ h
    have : l₂ = [] := List.eq_nil_of_length_eq_zero h.symm
    subst this
    rfl
  | cons a l₁ ih =>
    intro l₂ h
    match l₂ with
    | [] => simp at h
    | b :: l₂ =>
      have hlen : l₁.length = l₂.length := by simpa using h
      simp only [List.reverse_cons]
      rw [List.zip_append (by simp [hlen])]
      rw [ih l₂ hlen]
      simp

/-- Folding the ravel accumulator over the digits of `n` in mixed radix
`shapeR` (innermost dimension first) recovers `n` and the radix
product. -/
theorem unravelRev_fold (shapeR : List Nat) :
    ∀ (n a c : Nat), (∀ d ∈ shapeR, 0 < d) → n < shapeR.prod →
      ((unravelRev n shapeR).zip shapeR).foldl
          (fun p is => (p.1 + is.1 * p.2, p.2 * is.2)) (a, c) =
        (a + n * c, c * shapeR.prod) := by
  induction shapeR with
  | nil =>
    intro n a c hpos hn
    have : n = 0 := Nat.lt_one_iff.1 (by simpa using hn)
    subst this
    simp [unravelRev]
  | cons d rest ih =>
    intro n a c hpos hn
    have hd : 0 < d := hpos d (List.mem_cons_self d rest)
    have hrest : ∀ x ∈ rest, 0 < x :=
      fun x hx => hpos x (List.mem_cons_of_mem d hx)
    have hdiv : n / d < rest.prod := by
      rw [Nat.div_lt_iff_lt_mul hd]
      calc n < (d :: rest).prod := hn
        _ = rest.prod * d := by rw [List.prod_cons]; ring
    simp only [unravelRev, List.zip_cons_cons, List.foldl_cons]
    rw [ih (n / d) (a + n % d * c) (c * d) hrest hdiv]
    have h1 : a + n % d * c + n / d * (c * d) = a + n * c := by
      have hmod : d * (n / d) + n % d = n := Nat.div_add_mod n d
      calc a + n % d * c + n / d * (c * d)
          = a + (d * (n / d) + n % d) * c := by ring
        _ = a + n * c := by rw [hmod]
    have h2 : c * d * rest.prod = c * (d :: rest).prod := by
      rw [List.prod_cons]; ring
    rw [h1, h2]

/-- Every digit produced by the unravelling loop is below its radix. -/
theorem unravelRev_lt (shapeR : List Nat) :
    ∀ n, (∀ d ∈ shapeR, 0 < d) →
      List.Forall₂ (fun a b => a < b) (unravelRev n shapeR) shapeR := by
  induction shapeR with
  | nil => intro n _; exact List.Forall₂.nil
  | cons d rest ih =>
    intro n h
    exact List.Forall₂.cons
      (Nat.mod_lt n (h d (List.mem_cons_self d rest)))
      (ih (n / d) (fun x hx => h x (List.mem_cons_of_mem d hx)))

/-- C10: for a shape of positive dimension lengths and a linear index
below the shape product, `ravel_indices` inverts `unravel_index`, and
every component of `unravel_index` is strictly below the corresponding
dimension length. -/
theorem unravel_ravel_spec (shape : List Nat) (i : Nat)
    (hpos : ∀ d ∈ shape, 0 < d) (hi : i < shape.prod) :
    ravel_indices (unravel_index i shape) shape = i ∧
    List.Forall₂ (fun a b => a < b) (unravel_index i shape) shape := by
  have hposR : ∀ d ∈ shape.reverse, 0 < d :=
    fun d hd => hpos d (List.mem_reverse.1 hd)
  have hiR : i < shape.reverse.prod := by rwa [List.prod_reverse]
  have hz : (unravelRev i shape.reverse).reverse.zip shape =
      ((unravelRev i shape.reverse).zip shape.reverse).reverse := by
    have h := zip_reverse_of_length_eq (unravelRev i shape.reverse)
      shape.reverse (unravelRev_length i shape.reverse)
    rwa [List.reverse_reverse] at h
  constructor
  · unfold ravel_indices unravel_index
    rw [hz, List.reverse_reverse]
    rw [unravelRev_fold shape.reverse i 0 1 hposR hiR]
    simp
  · unfold unravel_index
    have hf := List.forall₂_reverse_iff.2 (unravelRev_lt shape.reverse i hposR)
    rwa [List.reverse_reverse] at hf

/-- Witness for C10 with shape `[2, 3]` and linear index 4
(which unravels to `[1, 1]`). -/
theorem unravel_ravel_spec_witness :
    (∀ d ∈ [2, 3], 0 < d) ∧ 4 < List.prod [2, 3] ∧
    ravel_indices (unravel_index 4 [2, 3]) [2, 3] = 4 ∧
    List.Forall₂ (fun a b => a < b) (unravel_index 4 [2, 3]) [2, 3] :=
  ⟨by decide, by decide,
   (unravel_ravel_spec [2, 3] 4 (by decide) (by decide)).1,
   (unravel_ravel_spec [2, 3] 4 (by decide) (by decide)).2⟩

/-- Witness for C2: two patches on key `a` (the second extending the
value) and an untouched key `b`. -/
theorem set_partial_values_spec_witness :
    set_partial_values
        (fun k => if k = "a" then some [10, 11, 12] else none)
        [⟨"a", 1, [7]⟩, ⟨"a", 2, [8, 9]⟩] "a" = some [10, 7, 8, 9] ∧
    set_partial_values
        (fun k => if k = "a" then some [10, 11, 12] else none)
        [⟨"a", 1, [7]⟩, ⟨"a", 2, [8, 9]⟩] "b" = none := by
  constructor
  · rw [set_partial_values_spec]
    decide
  · rw [set_partial_values_spec]
    decide

end Zarrs
